import Mathlib

/-!
Verification of the header-based HTML segmentation algorithm of
`split_html_on_headers.py` (`split_text_from_file` and the `split_html`
wrapper).  The parsed HTML tree is embedded as an inductive `Node`; the
BeautifulSoup operations the source uses — `get_text(separator=' ',
strip=True)`, `find_all`, `find_next_siblings`, `find_all_previous` —
are given their document-order semantics (each of `find_all`,
`find_next_siblings` and `find_all_previous`, called with no filter,
yields element tags only, never bare text nodes), and the segmentation
code is translated statement by statement.  The model covers the
fragment case of `html.parser`, where `soup.body` is `None` and the
scanned subtree is the soup itself; this is the path every scenario of
the spec exercises, since its inputs are body fragments.
-/

namespace Prirucka

/-- A node of the parsed HTML tree: a bare text node, or an element tag
with a name and a list of children. -/
inductive Node where
  | text (s : String)
  | tag (name : String) (children : List Node)

/-- The module-level header configuration `HEADERS_TO_SPLIT_ON =
[("h1", "Header 1"), ("h2", "Header 2"), ("h3", "Header 3")]`. -/
def HEADERS_TO_SPLIT_ON : List (String × String) :=
  [("h1", "Header 1"), ("h2", "Header 2"), ("h3", "Header 3")]

/-- `headers_to_split_on = [tag[0] for tag in HEADERS_TO_SPLIT_ON]`. -/
def headers_to_split_on : List String := HEADERS_TO_SPLIT_ON.map Prod.fst

/-- `header_mapping = dict(HEADERS_TO_SPLIT_ON)`, looked up at a header
name.  Made total by defaulting to `""`; the source only performs the
lookup at names returned by `find_all(headers_to_split_on)`, where it
succeeds. -/
def header_mapping (name : String) : String :=
  ((HEADERS_TO_SPLIT_ON.find? (fun p => p.1 == name)).map Prod.snd).getD ""

/-- Python `str.strip()`: drop whitespace from both ends. -/
def pyStrip (s : String) : String :=
  ⟨(s.data.dropWhile Char.isWhitespace).reverse.dropWhile Char.isWhitespace |>.reverse⟩

/-- Python `sep.join(l)`. -/
def sepJoin (sep : String) : List String → String
  | [] => ""
  | [s] => s
  | s :: rest => s ++ sep ++ sepJoin sep rest

mutual

/-- All descendant text-node strings of a node, in document order. -/
def nodeStrings : Node → List String
  | .text s => [s]
  | .tag _ cs => listStrings cs

/-- All descendant text-node strings of a forest, in document order. -/
def listStrings : List Node → List String
  | [] => []
  | c :: cs => nodeStrings c ++ listStrings cs

end

/-- BeautifulSoup `get_text(separator=' ', strip=True)` on a list of
descendant strings: each string is stripped, strings that become empty
are dropped, and the rest are joined with single spaces. -/
def joinStrip (l : List String) : String :=
  sepJoin " " ((l.map pyStrip).filter (fun s => s ≠ ""))

/-- `elem.get_text(separator=' ', strip=True)` on a single element. -/
def get_text (n : Node) : String := joinStrip (nodeStrings n)

/-- `body.get_text(separator=' ', strip=True)` on the scanned subtree
(the whole forest of roots). -/
def get_text_all (roots : List Node) : String := joinStrip (listStrings roots)

mutual

/-- `body.find_all(headers_to_split_on)` together with the sibling
context the per-header loop needs: every header tag of the forest in
document (pre-order) order, as a record `(name, children, following
siblings)`.  The third component is the list of nodes after the header
in its parent's child list, which is exactly what
`find_next_siblings()` iterates over (tags only — the model keeps the
bare text nodes in the list and the consumer skips them, mirroring the
redundant `isinstance(sibling, bs4.Tag)` check of the source). -/
def listHeaderRecs (names : List String) : List Node → List (String × List Node × List Node)
  | [] => []
  | n :: rest => nodeHeaderRecs names n rest ++ listHeaderRecs names rest

/-- Header records contributed by one node (itself, then its subtree),
given the node's following siblings `rest`. -/
def nodeHeaderRecs (names : List String) (n : Node) (rest : List Node) :
    List (String × List Node × List Node) :=
  match n with
  | .text _ => []
  | .tag nm cs =>
    (if names.contains nm then [(nm, cs, rest)] else []) ++ listHeaderRecs names cs

end

mutual

/-- Walk of a forest in document (pre-order) order, collecting the
element tags that occur strictly before the first header tag; the flag
records whether a header was found.  Ancestors of the first header
start before it in pre-order, so they are collected too — exactly the
set of tags `first_header.find_all_previous()` yields (that call walks
the parse order backwards, so it produces these tags reversed,
closest-first; see `find_all_previous`). -/
def listTagsBefore (names : List String) : List Node → List Node × Bool
  | [] => ([], false)
  | n :: rest =>
    let p := nodeTagsBefore names n
    if p.2 then p
    else
      let q := listTagsBefore names rest
      (p.1 ++ q.1, q.2)

/-- Tags before the first header within a single node's subtree. -/
def nodeTagsBefore (names : List String) (n : Node) : List Node × Bool :=
  match n with
  | .text _ => ([], false)
  | .tag nm cs =>
    if names.contains nm then ([], true)
    else
      let p := listTagsBefore names cs
      (.tag nm cs :: p.1, p.2)

end

/-- `first_header.find_all_previous()`: all element tags that precede
the first header in parse order, closest first (reverse document
order). -/
def find_all_previous (names : List String) (roots : List Node) : List Node :=
  (listTagsBefore names roots).1.reverse

/-- The pre-header accumulation loop of the source: starting from
`pre_header_content = ''`, walk the closest-first previous elements and
prepend `text + ' '` for each element with non-empty text. -/
def pre_header_content (elems : List Node) : String :=
  elems.foldl
    (fun pre e =>
      let t := get_text e
      if t ≠ "" then t ++ " " ++ pre else pre)
    ""

/-- The pre-header text computed for a document. -/
def pre_text (roots : List Node) : String :=
  pre_header_content (find_all_previous headers_to_split_on roots)

/-- One output record: `Document(page_content=..., metadata=...)`.  The
metadata dict is embedded as a list of key/value pairs. -/
structure Document where
  page_content : String
  metadata : List (String × String)
deriving DecidableEq

/-- The pre-header part of the output: a single chunk with empty
metadata when the stripped pre-header text is non-empty, nothing
otherwise (`if pre_header_content.strip(): documents.append(...)`). -/
def pre_documents (roots : List Node) : List Document :=
  if pyStrip (pre_text roots) ≠ "" then [⟨pyStrip (pre_text roots), []⟩] else []

/-- The sibling scan of the per-header loop: iterate the following
siblings, break at the first tag whose name is in
`headers_to_split_on`, collect the element tags (bare text node
siblings are skipped — `find_next_siblings()` never yields them). -/
def content_elements (names : List String) : List Node → List Node
  | [] => []
  | .text _ :: rest => content_elements names rest
  | .tag nm cs :: rest =>
    if names.contains nm then []
    else .tag nm cs :: content_elements names rest

/-- The content accumulation loop: `current_content += text + ' '` for
each collected element whose text is non-empty. -/
def current_content (elems : List Node) : String :=
  elems.foldl
    (fun acc e =>
      let t := get_text e
      if t ≠ "" then acc ++ (t ++ " ") else acc)
    ""

/-- The body of the per-header loop: build the single-entry metadata
`{header_mapping[header.name]: header.get_text(...)}`, collect and
strip the sibling content, and emit a `Document` — with empty text when
the stripped content is empty. -/
def mk_header_document (names : List String) (r : String × List Node × List Node) : Document :=
  let header_text := get_text (.tag r.1 r.2.1)
  let meta := [(header_mapping r.1, header_text)]
  let content := pyStrip (current_content (content_elements names r.2.2))
  if content ≠ "" then ⟨content, meta⟩ else ⟨"", meta⟩

/-- `split_text_from_file`, applied to the already-parsed tree (reading
the file is I/O outside the core).  If no header exists, the whole
subtree's stripped text is returned as at most one metadata-free chunk;
otherwise the optional pre-header chunk is followed by one chunk per
header in document order. -/
def split_text_from_file (roots : List Node) : List Document :=
  match listHeaderRecs headers_to_split_on roots with
  | [] =>
    let full_text := get_text_all roots
    if pyStrip full_text ≠ "" then [⟨pyStrip full_text, []⟩] else []
  | r :: rs =>
    pre_documents roots ++ ((r :: rs).map (mk_header_document headers_to_split_on))

mutual

/-- Number of header tags in a forest. -/
def listCountHeaders (names : List String) : List Node → Nat
  | [] => 0
  | n :: rest => nodeCountHeaders names n + listCountHeaders names rest

/-- Number of header tags in one node's subtree. -/
def nodeCountHeaders (names : List String) (n : Node) : Nat :=
  match n with
  | .text _ => 0
  | .tag nm cs => (if names.contains nm then 1 else 0) + listCountHeaders names cs

end

mutual

/-- All element tags of a forest in document (pre-order) order. -/
def listPreorderTags : List Node → List Node
  | [] => []
  | n :: rest => nodePreorderTags n ++ listPreorderTags rest

/-- All element tags of one node's subtree in pre-order. -/
def nodePreorderTags : Node → List Node
  | .text _ => []
  | .tag nm cs => .tag nm cs :: listPreorderTags cs

end

/-- Whether a node is a header tag of the configuration. -/
def isHeaderTag (names : List String) : Node → Bool
  | .text _ => false
  | .tag nm _ => names.contains nm

/-- Whether a node is an element tag (`isinstance(n, bs4.Tag)`). -/
def isTagNode : Node → Bool
  | .text _ => false
  | .tag _ _ => true

/-! The `split_html` wrapper.  Its body reads the input file, splits
it, optionally filters chunks with empty metadata, and writes the
results; any `FileNotFoundError` or other `Exception` raised inside is
caught by the surrounding `try`/`except` blocks and logged, after which
the function returns normally. -/

/-- A Python exception as observed by the handlers of `split_html`. -/
inductive PyError where
  | fileNotFoundError
  | otherException (msg : String)

/-- `open(file_path).read()` followed by parsing, over an abstract file
system mapping paths to parsed trees; a missing path raises
`FileNotFoundError`. -/
def read_file (fs : List (String × List Node)) (path : String) :
    Except PyError (List Node) :=
  match fs.lookup path with
  | some roots => Except.ok roots
  | none => Except.error PyError.fileNotFoundError

/-- The `try` body of `split_html` (non-interactive mode): read and
split the file, then keep each split unless `drop_empty_metadata` is
set and its metadata is empty. -/
def split_html_try (fs : List (String × List Node)) (path : String)
    (drop_empty_metadata : Bool) : Except PyError (List Document) := do
  let roots ← read_file fs path
  let splits := split_text_from_file roots
  pure (if drop_empty_metadata then splits.filter (fun d => !d.metadata.isEmpty) else splits)

/-- `split_html` with its two `except` clauses: a `FileNotFoundError`
or any other `Exception` from the body is logged and swallowed, and the
function returns normally (`none` marks the logged-error return). -/
def split_html (fs : List (String × List Node)) (path : String)
    (drop_empty_metadata : Bool) : Except PyError (Option (List Document)) :=
  match split_html_try fs path drop_empty_metadata with
  | Except.ok r => Except.ok (some r)
  | Except.error PyError.fileNotFoundError => Except.ok none
  | Except.error (PyError.otherException _) => Except.ok none

/-! Concrete documents used by the scenario parts of the claims. -/

/-- The parse of `<p>intro</p><h1>A</h1><p>body</p>`. -/
def exPre : List Node :=
  [.tag "p" [.text "intro"], .tag "h1" [.text "A"], .tag "p" [.text "body"]]

/-- The parse of `<h1>A</h1><h2>B</h2>`: a header immediately followed
by another header. -/
def exAdjacent : List Node :=
  [.tag "h1" [.text "A"], .tag "h2" [.text "B"]]

/-- The parse of `<div><p>intro</p><h1>A</h1><p>body</p></div>`: the
pre-header text and the headers share a wrapping element. -/
def exWrapped : List Node :=
  [.tag "div" [.tag "p" [.text "intro"], .tag "h1" [.text "A"], .tag "p" [.text "body"]]]

/-- The parse of `<h1>A</h1>loose<p>inner</p><h1>B</h1>`: a bare text
node lies directly between the header and the next header. -/
def exLoose : List Node :=
  [.tag "h1" [.text "A"], .text "loose", .tag "p" [.text "inner"], .tag "h1" [.text "B"]]

/-- The parse of `<div><p>intro</p><h1>A</h1>loose<h1>B</h1></div>`: a
bare text node lies directly between the two headers, and an ancestor
`div` wraps both it and the headers. -/
def exLooseWrapped : List Node :=
  [.tag "div" [.tag "p" [.text "intro"], .tag "h1" [.text "A"],
    .text "loose", .tag "h1" [.text "B"]]]

/-- Text of a list of elements reassembled in document (reading)
order: each element's non-empty stripped text followed by a space. -/
def docOrderTexts : List Node → String
  | [] => ""
  | e :: rest =>
    (let t := get_text e
     if t = "" then "" else t ++ " ") ++ docOrderTexts rest

/-! Helper lemmas. -/

/-- Joint induction over the nested tree structure. -/
theorem forest_induct (P : Node → Prop) (Q : List Node → Prop)
    (h1 : ∀ s, P (.text s)) (h2 : ∀ nm cs, Q cs → P (.tag nm cs))
    (h3 : Q []) (h4 : ∀ n l, P n → Q l → Q (n :: l)) :
    (∀ n, P n) ∧ ∀ l, Q l := by
  have hn : ∀ n, P n := fun n => Node.rec h1 h2 h3 h4 n
  refine ⟨hn, fun l => ?_⟩
  induction l with
  | nil => exact h3
  | cons n l ih => exact h4 n l (hn n) ih

/-- The number of header records equals the number of header tags. -/
theorem listHeaderRecs_length (names : List String) (l : List Node) :
    (listHeaderRecs names l).length = listCountHeaders names l := by
  refine (forest_induct
    (fun n => ∀ rest, (nodeHeaderRecs names n rest).length = nodeCountHeaders names n)
    (fun l => (listHeaderRecs names l).length = listCountHeaders names l)
    ?_ ?_ ?_ ?_).2 l
  · intro s rest
    simp [nodeHeaderRecs, nodeCountHeaders]
  · intro nm cs hcs rest
    by_cases hc : nm ∈ names <;>
      simp [nodeHeaderRecs, nodeCountHeaders, hc, hcs, Nat.add_comm]
  · simp [listHeaderRecs, listCountHeaders]
  · intro n l hn hl
    simp [listHeaderRecs, listCountHeaders, hn l, hl]

/-- The header records project, in order, to exactly the header tags of
the pre-order (document-order) traversal. -/
theorem listHeaderRecs_map_tag (names : List String) (l : List Node) :
    (listHeaderRecs names l).map (fun r => Node.tag r.1 r.2.1)
      = (listPreorderTags l).filter (isHeaderTag names) := by
  refine (forest_induct
    (fun n => ∀ rest, (nodeHeaderRecs names n rest).map (fun r => Node.tag r.1 r.2.1)
      = (nodePreorderTags n).filter (isHeaderTag names))
    (fun l => (listHeaderRecs names l).map (fun r => Node.tag r.1 r.2.1)
      = (listPreorderTags l).filter (isHeaderTag names))
    ?_ ?_ ?_ ?_).2 l
  · intro s rest
    simp [nodeHeaderRecs, nodePreorderTags]
  · intro nm cs hcs rest
    by_cases hc : nm ∈ names <;>
      simp [nodeHeaderRecs, nodePreorderTags, List.filter_cons, isHeaderTag, hc, hcs]
  · simp [listHeaderRecs, listPreorderTags]
  · intro n l hn hl
    simp [listHeaderRecs, listPreorderTags, hn l, hl]

/-- Characterization of the sibling scan: it keeps exactly the element
tags of the longest sibling prefix free of header tags. -/
theorem content_elements_takeWhile (names : List String) (sibs : List Node) :
    content_elements names sibs
      = (sibs.takeWhile (fun n => !(isHeaderTag names n))).filter isTagNode := by
  induction sibs with
  | nil => rfl
  | cons n rest ih =>
    cases n with
    | text s =>
      simp [content_elements, List.takeWhile_cons, isHeaderTag, isTagNode,
        List.filter_cons, ih]
    | tag nm cs =>
      by_cases hc : nm ∈ names <;>
        simp [content_elements, List.takeWhile_cons, isHeaderTag, isTagNode,
          List.filter_cons, hc, ih]

/-- Bare text node siblings are irrelevant to the sibling scan. -/
theorem content_elements_filter_tags (names : List String) (sibs : List Node) :
    content_elements names sibs = content_elements names (sibs.filter isTagNode) := by
  induction sibs with
  | nil => rfl
  | cons n rest ih =>
    cases n with
    | text s => simp [content_elements, isTagNode, List.filter_cons, ih]
    | tag nm cs =>
      by_cases hc : nm ∈ names <;>
        simp [content_elements, isTagNode, List.filter_cons, hc, ih]

/-- A per-header chunk is unchanged when the bare text node siblings of
its header are deleted: its text draws only on element-tag siblings. -/
theorem mk_header_document_filter_tags (names : List String)
    (r : String × List Node × List Node) :
    mk_header_document names r
      = mk_header_document names (r.1, r.2.1, r.2.2.filter isTagNode) := by
  unfold mk_header_document
  rw [← content_elements_filter_tags]

/-- The metadata of a per-header chunk is the single configured
label/header-text entry, in every case of the content test. -/
theorem mk_header_document_metadata (names : List String)
    (r : String × List Node × List Node) :
    (mk_header_document names r).metadata
      = [(header_mapping r.1, get_text (Node.tag r.1 r.2.1))] := by
  unfold mk_header_document
  by_cases h : pyStrip (current_content (content_elements names r.2.2)) ≠ "" <;> simp [h]

/-- The text of a per-header chunk is the stripped accumulated sibling
content (in the empty case both branches of the source agree). -/
theorem mk_header_document_content (names : List String)
    (r : String × List Node × List Node) :
    (mk_header_document names r).page_content
      = pyStrip (current_content (content_elements names r.2.2)) := by
  unfold mk_header_document
  by_cases h : pyStrip (current_content (content_elements names r.2.2)) ≠ ""
  · simp [h]
  · push_neg at h
    simp [h]

/-- Shape of the output when at least one header exists. -/
theorem split_eq_of_headers (roots : List Node)
    (h : listHeaderRecs headers_to_split_on roots ≠ []) :
    split_text_from_file roots
      = pre_documents roots
        ++ (listHeaderRecs headers_to_split_on roots).map
            (mk_header_document headers_to_split_on) := by
  unfold split_text_from_file
  cases hres : listHeaderRecs headers_to_split_on roots with
  | nil => exact absurd hres h
  | cons r rs => simp

/-- The backward prepending walk over the closest-first previous
elements reassembles their texts in original document order. -/
theorem pre_header_content_reverse (l : List Node) :
    pre_header_content l.reverse = docOrderTexts l := by
  induction l with
  | nil => rfl
  | cons e rest ih =>
    unfold pre_header_content at ih ⊢
    rw [List.reverse_cons, List.foldl_append, ih]
    by_cases h : get_text e = "" <;>
      simp [docOrderTexts, h, String.append_assoc]

/-- A non-empty forest of header records follows from a positive header
count. -/
theorem headerRecs_ne_nil (roots : List Node)
    (hh : 1 ≤ listCountHeaders headers_to_split_on roots) :
    listHeaderRecs headers_to_split_on roots ≠ [] := by
  refine List.ne_nil_of_length_pos ?_
  rw [listHeaderRecs_length]
  omega

/-- Shape of the output when no header exists. -/
theorem split_eq_of_no_headers (roots : List Node)
    (h : listHeaderRecs headers_to_split_on roots = []) :
    split_text_from_file roots
      = if pyStrip (get_text_all roots) ≠ ""
          then [⟨pyStrip (get_text_all roots), []⟩] else [] := by
  unfold split_text_from_file
  rw [h]

/-- The parse of `<p>only text, no headers</p>`. -/
def exNoHeader : List Node := [.tag "p" [.text "only text, no headers"]]

/-! Claim theorems. -/

/-- C1: for every document with at least one header and non-whitespace
text in the elements preceding the first header, the output starts with
exactly one pre-header chunk with empty metadata whose text is the
preceding elements' text reassembled in original reading order (all
later chunks carry non-empty metadata); and on
`<p>intro</p><h1>A</h1><p>body</p>` the output is exactly
`[{text: "intro", metadata: {}}, {text: "body", metadata: {"Header 1": "A"}}]`. -/
theorem pre_header_chunk_correct (roots : List Node)
    (hh : 1 ≤ listCountHeaders headers_to_split_on roots)
    (hp : pyStrip (pre_text roots) ≠ "") :
    split_text_from_file roots
        = ⟨pyStrip (pre_text roots), []⟩
            :: (listHeaderRecs headers_to_split_on roots).map
                (mk_header_document headers_to_split_on)
      ∧ pre_text roots = docOrderTexts (listTagsBefore headers_to_split_on roots).1
      ∧ ((split_text_from_file roots).filter (fun d => d.metadata.isEmpty)).length = 1
      ∧ split_text_from_file exPre
          = [⟨"intro", []⟩, ⟨"body", [("Header 1", "A")]⟩] := by
  have hne := headerRecs_ne_nil roots hh
  have hsplit := split_eq_of_headers roots hne
  have hpre : pre_documents roots = [⟨pyStrip (pre_text roots), []⟩] := by
    simp [pre_documents, hp]
  refine ⟨by rw [hsplit, hpre]; rfl, ?_, ?_, by decide⟩
  · simpa [pre_text, find_all_previous]
      using pre_header_content_reverse (listTagsBefore headers_to_split_on roots).1
  · rw [hsplit, hpre]
    have hnone : (((listHeaderRecs headers_to_split_on roots).map
        (mk_header_document headers_to_split_on)).filter
          (fun d => d.metadata.isEmpty)) = [] := by
      rw [List.filter_eq_nil_iff]
      intro d hd
      rcases List.mem_map.mp hd with ⟨r, _, rfl⟩
      simp [mk_header_document_metadata]
    simp [List.filter_cons, hnone]

/-- C1 witness: the theorem applied at `<p>intro</p><h1>A</h1><p>body</p>`. -/
theorem pre_header_chunk_correct_witness :
    (1 ≤ listCountHeaders headers_to_split_on exPre
      ∧ pyStrip (pre_text exPre) ≠ "")
    ∧ (split_text_from_file exPre
        = ⟨pyStrip (pre_text exPre), []⟩
            :: (listHeaderRecs headers_to_split_on exPre).map
                (mk_header_document headers_to_split_on)
      ∧ pre_text exPre = docOrderTexts (listTagsBefore headers_to_split_on exPre).1
      ∧ ((split_text_from_file exPre).filter (fun d => d.metadata.isEmpty)).length = 1
      ∧ split_text_from_file exPre
          = [⟨"intro", []⟩, ⟨"body", [("Header 1", "A")]⟩]) :=
  ⟨⟨by decide, by decide⟩, pre_header_chunk_correct exPre (by decide) (by decide)⟩

/-- C2: for every document with at least one header, the number of
per-header chunks (the output after the optional pre-header prefix)
equals the number of header elements found, and each per-header chunk's
metadata has exactly one entry, keyed by the configured label of that
header's tag, with the header's own visible text as value. -/
theorem per_header_chunk_count_metadata (roots : List Node)
    (hh : 1 ≤ listCountHeaders headers_to_split_on roots) :
    (split_text_from_file roots).length
        = (pre_documents roots).length + listCountHeaders headers_to_split_on roots
      ∧ (split_text_from_file roots).drop (pre_documents roots).length
          = (listHeaderRecs headers_to_split_on roots).map
              (mk_header_document headers_to_split_on)
      ∧ ∀ d ∈ (split_text_from_file roots).drop (pre_documents roots).length,
          d.metadata.length = 1
          ∧ ∃ r ∈ listHeaderRecs headers_to_split_on roots,
              d.metadata = [(header_mapping r.1, get_text (Node.tag r.1 r.2.1))] := by
  have hne := headerRecs_ne_nil roots hh
  have hsplit := split_eq_of_headers roots hne
  have hdrop : (split_text_from_file roots).drop (pre_documents roots).length
      = (listHeaderRecs headers_to_split_on roots).map
          (mk_header_document headers_to_split_on) := by
    rw [hsplit, List.drop_left]
  refine ⟨?_, hdrop, ?_⟩
  · rw [hsplit]
    simp [listHeaderRecs_length]
  · intro d hd
    rw [hdrop] at hd
    rcases List.mem_map.mp hd with ⟨r, hr, rfl⟩
    exact ⟨by simp [mk_header_document_metadata], r, hr,
      mk_header_document_metadata headers_to_split_on r⟩

/-- C2 witness: the theorem applied at `<p>intro</p><h1>A</h1><p>body</p>`. -/
theorem per_header_chunk_count_metadata_witness :
    1 ≤ listCountHeaders headers_to_split_on exPre
    ∧ ((split_text_from_file exPre).length
        = (pre_documents exPre).length + listCountHeaders headers_to_split_on exPre
      ∧ (split_text_from_file exPre).drop (pre_documents exPre).length
          = (listHeaderRecs headers_to_split_on exPre).map
              (mk_header_document headers_to_split_on)
      ∧ ∀ d ∈ (split_text_from_file exPre).drop (pre_documents exPre).length,
          d.metadata.length = 1
          ∧ ∃ r ∈ listHeaderRecs headers_to_split_on exPre,
              d.metadata = [(header_mapping r.1, get_text (Node.tag r.1 r.2.1))]) :=
  ⟨by decide, per_header_chunk_count_metadata exPre (by decide)⟩

/-- C3: for every document with zero header elements, the output is at
most one chunk with empty metadata whose text is the stripped visible
text of the subtree, and is empty when that text is blank; in
particular the empty body yields `[]`. -/
theorem no_header_fallback (roots : List Node)
    (hz : listCountHeaders headers_to_split_on roots = 0) :
    split_text_from_file roots
        = (if pyStrip (get_text_all roots) ≠ ""
            then [⟨pyStrip (get_text_all roots), []⟩] else [])
      ∧ (split_text_from_file roots).length ≤ 1
      ∧ (∀ d ∈ split_text_from_file roots,
            d.metadata = [] ∧ d.page_content = pyStrip (get_text_all roots))
      ∧ split_text_from_file ([] : List Node) = [] := by
  have hnil : listHeaderRecs headers_to_split_on roots = [] := by
    have hlen := listHeaderRecs_length headers_to_split_on roots
    rw [hz] at hlen
    exact List.length_eq_zero.mp hlen
  have hmain := split_eq_of_no_headers roots hnil
  refine ⟨hmain, ?_, ?_, by decide⟩
  · rw [hmain]
    by_cases h : pyStrip (get_text_all roots) ≠ "" <;> simp [h]
  · intro d hd
    rw [hmain] at hd
    by_cases h : pyStrip (get_text_all roots) ≠ ""
    · rw [if_pos h] at hd
      rcases List.mem_singleton.mp hd with rfl
      exact ⟨rfl, rfl⟩
    · simp [h] at hd

/-- C3 witness: the theorem applied at `<p>only text, no headers</p>`. -/
theorem no_header_fallback_witness :
    listCountHeaders headers_to_split_on exNoHeader = 0
    ∧ (split_text_from_file exNoHeader
        = (if pyStrip (get_text_all exNoHeader) ≠ ""
            then [⟨pyStrip (get_text_all exNoHeader), []⟩] else [])
      ∧ (split_text_from_file exNoHeader).length ≤ 1
      ∧ (∀ d ∈ split_text_from_file exNoHeader,
            d.metadata = [] ∧ d.page_content = pyStrip (get_text_all exNoHeader))
      ∧ split_text_from_file ([] : List Node) = []) :=
  ⟨by decide, no_header_fallback exNoHeader (by decide)⟩

/-- C4: the content collected for a header's chunk consists only of
element-tag siblings following the header, stopping at the first
following sibling whose tag is any configured header tag, regardless
of that header's level; in particular an `h3` sibling terminates the
scan of an `h1` chunk just as an equal- or higher-level header would. -/
theorem sibling_scan_boundary (names : List String) (sibs : List Node) :
    content_elements names sibs
        = (sibs.takeWhile (fun n => !(isHeaderTag names n))).filter isTagNode
      ∧ (∀ e ∈ content_elements names sibs,
            e ∈ sibs ∧ isTagNode e = true ∧ isHeaderTag names e = false)
      ∧ (∀ r : String × List Node × List Node,
            (mk_header_document names r).page_content
              = pyStrip (current_content (content_elements names r.2.2)))
      ∧ content_elements headers_to_split_on
            [Node.tag "p" [Node.text "x"], Node.tag "h3" [Node.text "C"],
              Node.tag "p" [Node.text "y"]]
          = [Node.tag "p" [Node.text "x"]] := by
  refine ⟨content_elements_takeWhile names sibs, ?_,
    mk_header_document_content names, rfl⟩
  intro e he
  rw [content_elements_takeWhile] at he
  have h1 := List.mem_filter.mp he
  have h2 := List.mem_takeWhile_imp h1.1
  refine ⟨(List.takeWhile_sublist _).subset h1.1, h1.2, ?_⟩
  simpa using h2

/-- C5: a header whose immediately following sibling is another header
(of any configured level) still yields a chunk, with empty text and the
single-entry metadata of the first header, at its position in the
output. -/
theorem adjacent_header_empty_chunk (roots : List Node) (i : Nat)
    (nm : String) (cs : List Node) (nm2 : String) (cs2 : List Node)
    (rest : List Node)
    (hget : (listHeaderRecs headers_to_split_on roots)[i]?
      = some (nm, cs, Node.tag nm2 cs2 :: rest))
    (hnm2 : nm2 ∈ headers_to_split_on) :
    (split_text_from_file roots)[(pre_documents roots).length + i]?
      = some ⟨"", [(header_mapping nm, get_text (Node.tag nm cs))]⟩ := by
  have hne : listHeaderRecs headers_to_split_on roots ≠ [] := by
    intro hnil
    rw [hnil] at hget
    simp at hget
  rw [split_eq_of_headers roots hne,
    List.getElem?_append_right (by omega : (pre_documents roots).length ≤ (pre_documents roots).length + i),
    Nat.add_sub_cancel_left, List.getElem?_map, hget]
  have hcontent : content_elements headers_to_split_on (Node.tag nm2 cs2 :: rest) = [] := by
    simp [content_elements, hnm2]
  have hmk : mk_header_document headers_to_split_on (nm, cs, Node.tag nm2 cs2 :: rest)
      = ⟨"", [(header_mapping nm, get_text (Node.tag nm cs))]⟩ := by
    unfold mk_header_document
    rw [hcontent]
    simp [current_content, pyStrip]
  simp [hmk]

/-- C5 witness: the theorem applied at `<h1>A</h1><h2>B</h2>`, index 0. -/
theorem adjacent_header_empty_chunk_witness :
    ((listHeaderRecs headers_to_split_on exAdjacent)[0]?
        = some ("h1", [Node.text "A"], [Node.tag "h2" [Node.text "B"]])
      ∧ "h2" ∈ headers_to_split_on)
    ∧ (split_text_from_file exAdjacent)[(pre_documents exAdjacent).length + 0]?
        = some ⟨"", [(header_mapping "h1", get_text (Node.tag "h1" [Node.text "A"]))]⟩ :=
  ⟨⟨rfl, by decide⟩,
    adjacent_header_empty_chunk exAdjacent 0 "h1" [Node.text "A"] "h2"
      [Node.text "B"] [] rfl (by decide)⟩

/-- C6: for every input document, the output is an optional single
metadata-free chunk followed by the per-header chunks, one per header
record, in the document (pre-order) order of the header elements that
introduce them — the header records project, in order, to exactly the
header tags of the document-order traversal. -/
theorem chunk_order (roots : List Node) :
    ∃ pre : List Document,
      split_text_from_file roots
          = pre ++ (listHeaderRecs headers_to_split_on roots).map
              (mk_header_document headers_to_split_on)
        ∧ pre.length ≤ 1
        ∧ (∀ d ∈ pre, d.metadata = [])
        ∧ (listHeaderRecs headers_to_split_on roots).map (fun r => Node.tag r.1 r.2.1)
            = (listPreorderTags roots).filter (isHeaderTag headers_to_split_on) := by
  by_cases hne : listHeaderRecs headers_to_split_on roots = []
  · refine ⟨split_text_from_file roots, by simp [hne], ?_, ?_,
      listHeaderRecs_map_tag headers_to_split_on roots⟩
    · rw [split_eq_of_no_headers roots hne]
      by_cases h : pyStrip (get_text_all roots) ≠ "" <;> simp [h]
    · intro d hd
      rw [split_eq_of_no_headers roots hne] at hd
      by_cases h : pyStrip (get_text_all roots) ≠ ""
      · rw [if_pos h] at hd
        rcases List.mem_singleton.mp hd with rfl
        rfl
      · simp [h] at hd
  · refine ⟨pre_documents roots, split_eq_of_headers roots hne, ?_, ?_,
      listHeaderRecs_map_tag headers_to_split_on roots⟩
    · unfold pre_documents
      by_cases h : pyStrip (pre_text roots) ≠ "" <;> simp [h]
    · intro d hd
      unfold pre_documents at hd
      by_cases h : pyStrip (pre_text roots) ≠ ""
      · rw [if_pos h] at hd
        rcases List.mem_singleton.mp hd with rfl
        rfl
      · simp [h] at hd

/-- C7: segmentation is deterministic and free of hidden state: it is a
pure function of the parsed tree, so two invocations on the same tree
produce identical chunk sequences. -/
theorem segmentation_deterministic (roots roots' : List Node)
    (h : roots = roots') :
    split_text_from_file roots = split_text_from_file roots' := by
  rw [h]

/-- C7 witness: two invocations on `<p>intro</p><h1>A</h1><p>body</p>`. -/
theorem segmentation_deterministic_witness :
    exPre = exPre
    ∧ split_text_from_file exPre = split_text_from_file exPre :=
  ⟨rfl, segmentation_deterministic exPre exPre rfl⟩

/-- C8: on `<div><p>intro</p><h1>A</h1><p>body</p></div>`, whose `div`
wraps both the pre-header text and the headers, the backward walk
visits the ancestor `div` and takes its full subtree text, so the
emitted pre-header chunk contains the text `body` that occurs after the
first header — the later chunk's entire text is an infix of the
pre-header chunk's text. -/
theorem pre_header_walk_duplicates :
    split_text_from_file exWrapped
        = [⟨"intro A body intro", []⟩, ⟨"body", [("Header 1", "A")]⟩]
      ∧ (Document.mk "body" [("Header 1", "A")]).page_content.data
          <:+: (Document.mk "intro A body intro" []).page_content.data :=
  ⟨by decide, by decide⟩

/-- C9 counterexample: on `<div><p>intro</p><h1>A</h1>loose<h1>B</h1></div>`
the bare text node `loose` lying directly between the two headers is
not omitted from every chunk of the output: the backward pre-header
walk takes the ancestor `div`'s full subtree text, so the emitted
pre-header chunk contains `loose`. -/
theorem bare_text_sibling_in_output :
    split_text_from_file exLooseWrapped
        = [⟨"intro A loose B intro", []⟩, ⟨"", [("Header 1", "A")]⟩,
            ⟨"", [("Header 1", "B")]⟩]
      ∧ Document.mk "intro A loose B intro" [] ∈ split_text_from_file exLooseWrapped
      ∧ ("loose" : String).data <:+: ("intro A loose B intro" : String).data :=
  ⟨by decide, by decide, by decide⟩

/-- C9 (amended): a per-header chunk's text includes only text
contained in element-tag siblings of the header — for every document
with at least one header, the per-header chunks of the output are
unchanged when every bare text node sibling is deleted — so a bare text
node lying directly between two headers is omitted from every
per-header chunk of the output (though not necessarily from the
pre-header chunk, whose backward walk can pick it up through an
ancestor's full subtree text): on `<h1>A</h1>loose<p>inner</p><h1>B</h1>`
no chunk contains `loose`, and on
`<div><p>intro</p><h1>A</h1>loose<h1>B</h1></div>` no per-header chunk
contains `loose`. -/
theorem bare_text_sibling_omitted_per_header (roots : List Node)
    (hh : 1 ≤ listCountHeaders headers_to_split_on roots) :
    (split_text_from_file roots).drop (pre_documents roots).length
        = (listHeaderRecs headers_to_split_on roots).map
            (fun r => mk_header_document headers_to_split_on
              (r.1, r.2.1, r.2.2.filter isTagNode))
      ∧ (∀ (names : List String) (sibs : List Node),
            content_elements names sibs
              = content_elements names (sibs.filter isTagNode))
      ∧ split_text_from_file exLoose
          = [⟨"inner", [("Header 1", "A")]⟩, ⟨"", [("Header 1", "B")]⟩]
      ∧ ∀ d ∈ (split_text_from_file exLooseWrapped).drop
            (pre_documents exLooseWrapped).length,
          ¬ (("loose" : String).data <:+: d.page_content.data) := by
  have hne := headerRecs_ne_nil roots hh
  have hdrop : (split_text_from_file roots).drop (pre_documents roots).length
      = (listHeaderRecs headers_to_split_on roots).map
          (mk_header_document headers_to_split_on) := by
    rw [split_eq_of_headers roots hne, List.drop_left]
  refine ⟨?_, content_elements_filter_tags, by decide, by decide⟩
  rw [hdrop]
  exact List.map_congr_left
    (fun r _ => mk_header_document_filter_tags headers_to_split_on r)

/-- C9 witness: the amended theorem applied at
`<div><p>intro</p><h1>A</h1>loose<h1>B</h1></div>`. -/
theorem bare_text_sibling_omitted_per_header_witness :
    1 ≤ listCountHeaders headers_to_split_on exLooseWrapped
    ∧ ((split_text_from_file exLooseWrapped).drop
          (pre_documents exLooseWrapped).length
        = (listHeaderRecs headers_to_split_on exLooseWrapped).map
            (fun r => mk_header_document headers_to_split_on
              (r.1, r.2.1, r.2.2.filter isTagNode))
      ∧ (∀ (names : List String) (sibs : List Node),
            content_elements names sibs
              = content_elements names (sibs.filter isTagNode))
      ∧ split_text_from_file exLoose
          = [⟨"inner", [("Header 1", "A")]⟩, ⟨"", [("Header 1", "B")]⟩]
      ∧ ∀ d ∈ (split_text_from_file exLooseWrapped).drop
            (pre_documents exLooseWrapped).length,
          ¬ (("loose" : String).data <:+: d.page_content.data)) :=
  ⟨by decide, bare_text_sibling_omitted_per_header exLooseWrapped (by decide)⟩

/-- C10: `split_html` never propagates an exception to its caller: a
`FileNotFoundError` (e.g. a missing input file) and every other
`Exception` raised by its body are caught and it returns normally. -/
theorem split_html_never_raises (fs : List (String × List Node))
    (path : String) (drop_empty_metadata : Bool) :
    (∃ r, split_html fs path drop_empty_metadata = Except.ok r)
      ∧ split_html [] "missing.html" true = Except.ok none := by
  refine ⟨?_, rfl⟩
  cases h : split_html_try fs path drop_empty_metadata with
  | ok r => exact ⟨some r, by simp [split_html, h]⟩
  | error e =>
    cases e with
    | fileNotFoundError => exact ⟨none, by simp [split_html, h]⟩
    | otherException msg => exact ⟨none, by simp [split_html, h]⟩

end Prirucka
